import Mathlib

/-!
Verification of the docu documentation generator (Python) against its
natural-language specification, via a shallow embedding in Lean 4.

The embedding follows src/docu/parsers.py (the final generation of the
parsing pipeline, which the spec designates as canonical), together with
src/docu/ast_utils.py (type rendering), src/docu/generators.py (markdown
rendering) and src/docu/doc_parsers.py (doc-style parser selection).

Python AST nodes are modelled by the inductive PyNode below.  Python
compares AST nodes by object identity, so the test
"node in parent_node.body" in the source succeeds exactly when
parent_node is the direct tree parent of node; the breadth-first walk
below therefore carries each visited node's tree parent.
-/

/-! ## Type-annotation expressions and the renderer (src/docu/ast_utils.py) -/

/-- Shapes of Python type-annotation AST expressions that get_type_str
inspects: Name, Subscript, Attribute, Constant (with its str() form),
List and Tuple literals, and a catch-all for every other node shape. -/
inductive TypeExpr where
  | tname (id : String)
  | subscript (value slice : TypeExpr)
  | attrAccess (value : TypeExpr) (attr : String)
  | constLit (str : String)
  | listLit (elts : List TypeExpr)
  | tupleLit (elts : List TypeExpr)
  | otherExpr

mutual

/-- Embedding of get_type_str (src/docu/ast_utils.py, lines 6-24). -/
def getTypeStr : TypeExpr → String
  | .tname id => id
  | .subscript v s => getTypeStr v ++ "[" ++ getTypeStr s ++ "]"
  | .attrAccess v a => getTypeStr v ++ "." ++ a
  | .constLit s => s
  | .listLit elts => "[" ++ getTypeStrList elts ++ "]"
  | .tupleLit elts => "(" ++ getTypeStrList elts ++ ")"
  | .otherExpr => "Any"

/-- Comma-joined rendering of a list of elements, as ", ".join(...) does. -/
def getTypeStrList : List TypeExpr → String
  | [] => ""
  | [e] => getTypeStr e
  | e :: rest => getTypeStr e ++ ", " ++ getTypeStrList rest

end

/-- The AST of the annotation Dict[str, Optional[int]] as produced by the
Python parser (3.9+): a Subscript whose slice is a Tuple. -/
def dictStrOptIntExpr : TypeExpr :=
  .subscript (.tname "Dict")
    (.tupleLit [.tname "str", .subscript (.tname "Optional") (.tname "int")])

/-! ## String primitives

Python's str.strip, str.startswith, slicing and lexicographic comparison,
implemented over the underlying character list so that every definition
in this file evaluates inside the kernel. -/

/-- Whether needle occurs at the head of hay. -/
def leadsWith : List Char → List Char → Bool
  | [], _ => true
  | _ :: _, [] => false
  | n :: ns, h :: hs => n == h && leadsWith ns hs

/-- Whether needle occurs anywhere inside hay (substring test on the
underlying character lists). -/
def occursIn (needle : List Char) : List Char → Bool
  | [] => leadsWith needle []
  | h :: hs => leadsWith needle (h :: hs) || occursIn needle hs

/-- Substring test on strings. -/
def strHasSub (hay needle : String) : Bool :=
  occursIn needle.toList hay.toList

/-- The whitespace characters str.strip removes (ASCII). -/
def isSpaceChar (c : Char) : Bool :=
  c == ' ' || c == '\t' || c == '\n' || c == '\r' ||
    c == Char.ofNat 11 || c == Char.ofNat 12

/-- str.strip(): remove leading and trailing whitespace. -/
def pyStrip (s : String) : String :=
  String.mk (((s.toList.dropWhile isSpaceChar).reverse.dropWhile isSpaceChar).reverse)

/-- str.startswith(pre). -/
def pyStartsWith (s pre : String) : Bool :=
  leadsWith pre.toList s.toList

/-- The slice s[n:] (by characters). -/
def pyDropChars (s : String) (n : Nat) : String :=
  String.mk (s.toList.drop n)

/-- Lexicographic character-list comparison. -/
def charListLt : List Char → List Char → Bool
  | [], [] => false
  | [], _ :: _ => true
  | _ :: _, [] => false
  | a :: as, b :: bs =>
    if a < b then true
    else if b < a then false
    else charListLt as bs

/-- Python string comparison s1 < s2 (code-point lexicographic). -/
def pyStrLt (s1 s2 : String) : Bool :=
  charListLt s1.toList s2.toList

/-! ## Comment scanner (src/docu/parsers.py, extract_doc_comments) -/

/-- Inner loop of extract_doc_comments: walk the file lines carrying the
1-based line counter; a line whose stripped form starts with the marker
contributes (line number, stripped line minus the two marker characters,
re-stripped). -/
def extractGo : Nat → List String → List (Nat × String)
  | _, [] => []
  | i, line :: rest =>
    let l := pyStrip line
    if pyStartsWith l "#/" then (i, pyStrip (pyDropChars l 2)) :: extractGo (i + 1) rest
    else extractGo (i + 1) rest

/-- Embedding of extract_doc_comments (src/docu/parsers.py, lines 11-29),
taking the file's lines. -/
def extractDocComments (src : List String) : List (Nat × String) :=
  extractGo 1 src

/-- The comment body the spec describes: the stripped line with the marker
and exactly one following space (if present) removed.  Modelled from the
spec (section 4.1) for comparison with the code's behavior. -/
def specCommentBody (line : String) : String :=
  let rest := pyDropChars (pyStrip line) 2
  if pyStartsWith rest " " then pyDropChars rest 1 else rest

/-! ## Doc-style parser selection (src/docu/doc_parsers.py, get_parser) -/

/-- The three concrete documentation-style parsers. -/
inductive DocStyleKind where
  | google
  | numpy
  | sphinx
deriving DecidableEq

/-- Embedding of get_parser (src/docu/doc_parsers.py, lines 162-183):
a style outside the parsers dictionary raises
ValueError("Unsupported documentation style: " + style). -/
def getParser (style : String) : Except String DocStyleKind :=
  if style = "google" then .ok .google
  else if style = "numpy" then .ok .numpy
  else if style = "sphinx" then .ok .sphinx
  else .error ("Unsupported documentation style: " ++ style)

/-! ## Python AST model (statements relevant to the pipeline) -/

/-- A formal parameter as exposed by the Python AST: its name and an
optional type-annotation expression. -/
structure PyArg where
  arg : String
  ann : Option TypeExpr

/-- Python statements as far as parse_python_file inspects them:
ClassDef, FunctionDef, AsyncFunctionDef (each with name, line number and
direct body), AnnAssign (with its target when that target is a simple
name, its annotation and line), and any other statement (whose body
holds the nested statements a compound statement may carry). -/
inductive PyNode where
  | classDef (name : String) (lineno : Nat) (body : List PyNode)
  | functionDef (name : String) (lineno : Nat) (args : List PyArg)
      (returns : Option TypeExpr) (body : List PyNode)
  | asyncFunctionDef (name : String) (lineno : Nat) (args : List PyArg)
      (returns : Option TypeExpr) (body : List PyNode)
  | annAssign (target : Option String) (ty : TypeExpr) (lineno : Nat)
  | otherStmt (lineno : Nat) (body : List PyNode)

/-- Declaration line of a statement. -/
def PyNode.line : PyNode → Nat
  | .classDef _ l _ => l
  | .functionDef _ l _ _ _ => l
  | .asyncFunctionDef _ l _ _ _ => l
  | .annAssign _ _ l => l
  | .otherStmt l _ => l

/-- Simple name of a declaration (empty for non-declarations). -/
def PyNode.pname : PyNode → String
  | .classDef n _ _ => n
  | .functionDef n _ _ _ _ => n
  | .asyncFunctionDef n _ _ _ _ => n
  | _ => ""

/-- Direct child statements, the contents of the node's body field. -/
def PyNode.children : PyNode → List PyNode
  | .classDef _ _ b => b
  | .functionDef _ _ _ _ b => b
  | .asyncFunctionDef _ _ _ _ b => b
  | .annAssign _ _ _ => []
  | .otherStmt _ b => b

/-- Positional parameters of a function declaration (the args.args list). -/
def PyNode.pargs : PyNode → List PyArg
  | .functionDef _ _ a _ _ => a
  | .asyncFunctionDef _ _ a _ _ => a
  | _ => []

/-- Return-annotation expression of a function declaration. -/
def PyNode.preturns : PyNode → Option TypeExpr
  | .functionDef _ _ _ r _ => r
  | .asyncFunctionDef _ _ _ r _ => r
  | _ => none

/-- isinstance(node, (ClassDef, FunctionDef, AsyncFunctionDef)). -/
def isDecl : PyNode → Bool
  | .classDef _ _ _ => true
  | .functionDef _ _ _ _ _ => true
  | .asyncFunctionDef _ _ _ _ _ => true
  | _ => false

/-- isinstance(node, ClassDef). -/
def isClass : PyNode → Bool
  | .classDef _ _ _ => true
  | _ => false

/-- isinstance(node, (FunctionDef, AsyncFunctionDef)). -/
def isFunc : PyNode → Bool
  | .functionDef _ _ _ _ _ => true
  | .asyncFunctionDef _ _ _ _ _ => true
  | _ => false

mutual

/-- Structural size of a statement, used to bound the walk depth. -/
def nsize : PyNode → Nat
  | .classDef _ _ b => 1 + lsize b
  | .functionDef _ _ _ _ b => 1 + lsize b
  | .asyncFunctionDef _ _ _ _ b => 1 + lsize b
  | .annAssign _ _ _ => 1
  | .otherStmt _ b => 1 + lsize b

/-- Total structural size of a list of statements. -/
def lsize : List PyNode → Nat
  | [] => 0
  | n :: ns => nsize n + lsize ns

end

/-! ### Breadth-first walk with parent pointers

ast.walk performs a breadth-first traversal: it yields the tree in queue
order, each node followed eventually by its children in order, level by
level.  Since Python compares AST nodes by identity, the membership test
"node in parent_node.body" used for parent resolution succeeds exactly
for the node's direct tree parent; the walk below therefore pairs every
visited statement with its parent statement (none for a direct child of
the module).  Expression subtrees contain no class or function
declarations and are omitted; this leaves the relative order of the
declaration nodes unchanged. -/

/-- One breadth-first level step: the next level holds every child of the
current level's nodes, tagged with its parent. -/
def nextLevel (level : List (PyNode × Option PyNode)) : List (PyNode × Option PyNode) :=
  level.flatMap fun p => p.1.children.map fun c => (c, some p.1)

/-- Fuel-bounded breadth-first traversal producing (node, parent) pairs in
level order.  The fuel only bounds the number of levels; walkPairs always
supplies enough (see walkAux_fuel_irrelevant). -/
def walkAux : Nat → List (PyNode × Option PyNode) → List (PyNode × Option PyNode)
  | 0, _ => []
  | _, [] => []
  | fuel + 1, level => level ++ walkAux fuel (nextLevel level)

/-- lsize of the pairs of a level. -/
def plsize (level : List (PyNode × Option PyNode)) : Nat :=
  lsize (level.map Prod.fst)

/-- ast.walk on a module whose body is tree, restricted to statements:
every statement paired with its direct parent, in breadth-first order. -/
def walkPairs (tree : List PyNode) : List (PyNode × Option PyNode) :=
  walkAux (lsize tree + 1) (tree.map fun n => (n, none))

/-- All statements of the tree in breadth-first order. -/
def walkNodes (tree : List PyNode) : List PyNode :=
  (walkPairs tree).map Prod.fst

/-- Strict descendants of a statement, in breadth-first order. -/
def descendantsOf (n : PyNode) : List PyNode :=
  (walkAux (nsize n + 1) (n.children.map fun c => (c, some n))).map Prod.fst

/-! ## Per-declaration comment attribution (src/docu/parsers.py, lines 113-130)

The loop "for line_no in range(node.lineno - 1, max(0, node.lineno - 20), -1)"
visits (node.lineno - 1) - max(0, node.lineno - 20) line numbers, counting
down from node.lineno - 1.  scanAux mirrors one loop iteration per unit of
fuel.  Collected entries keep (line number, text) so that consumption can
be stated about line numbers; the pipeline only uses the text components,
exactly as item_docs does. -/

/-- One run of the upward scan: dl is the doc_lines dictionary, src the raw
file lines (0-indexed, as Python's readlines indexes them), declLine the
declaration's line, used the used_doc_lines set.  Returns the collected
(line, text) pairs in ascending line order together with the updated used
set. -/
def scanAux (dl : Nat → Option String) (src : List String) (declLine : Nat) :
    Nat → Nat → Finset Nat → List (Nat × String) × Finset Nat
  | 0, _, used => ([], used)
  | fuel + 1, lineNo, used =>
    match dl lineNo with
    | some txt =>
      if lineNo ∈ used then
        scanAux dl src declLine fuel (lineNo - 1) used
      else if dl (lineNo + 1) = none ∧ lineNo ≠ declLine - 1 then
        ([], used)
      else
        let r := scanAux dl src declLine fuel (lineNo - 1) (insert lineNo used)
        (r.1 ++ [(lineNo, txt)], r.2)
    | none =>
      if lineNo < src.length ∧ (pyStrip (src.getD lineNo "") ≠ "") then
        ([], used)
      else
        scanAux dl src declLine fuel (lineNo - 1) used

/-- The full upward scan for a declaration at line declLine, with the
fuel and start line the Python range produces. -/
def scanUp (dl : Nat → Option String) (src : List String) (declLine : Nat)
    (used : Finset Nat) : List (Nat × String) × Finset Nat :=
  scanAux dl src declLine ((declLine - 1) - (declLine - 20)) (declLine - 1) used

/-- Attribution of comment runs to the declarations, in processing order,
threading the used_doc_lines set exactly as the Python loop does. -/
def scanRuns (dl : Nat → Option String) (src : List String) :
    List (PyNode × Option PyNode) → Finset Nat → List ((PyNode × Option PyNode) × List (Nat × String))
  | [], _ => []
  | d :: rest, used =>
    let r := scanUp dl src d.1.line used
    (d, r.1) :: scanRuns dl src rest r.2

/-! ## Module-level attribution (src/docu/parsers.py, lines 78-95) -/

/-- The doc_lines dictionary: last-wins line-number lookup into the
scanner's output (line numbers are unique, so any-wins). -/
def docLinesOf (dc : List (Nat × String)) : Nat → Option String :=
  fun l => (dc.reverse.lookup l)

/-- Module-level comment selection, given the first top-level declaration
line when one exists: a comment is module-level when its line is strictly
before the first declaration line and more than 3 lines above it; with no
top-level declarations, every comment is module-level. -/
def moduleEntries (dc : List (Nat × String)) : Option Nat → List (Nat × String)
  | some f => dc.filter fun p => decide (p.1 < f) && decide (f - p.1 > 3)
  | none => dc

/-- Insertion sort step that keeps an existing element before the new one
whenever le holds of it, giving a stable sort. -/
def insertLe {α : Type} (le : α → α → Bool) (x : α) : List α → List α
  | [] => [x]
  | y :: ys => if le y x then y :: insertLe le x ys else x :: y :: ys

/-- Stable sort (same result as Python's stable sorted). -/
def stableSortBy {α : Type} (le : α → α → Bool) (l : List α) : List α :=
  l.foldl (fun acc x => insertLe le x acc) []

/-- The sorted top-level declaration list of parse_python_file. -/
def topLevelDecls (tree : List PyNode) : List PyNode :=
  stableSortBy (fun a b => decide (a.line ≤ b.line)) (tree.filter isDecl)

/-- Line of the first top-level declaration, when any exists. -/
def firstDeclLine (tree : List PyNode) : Option Nat :=
  (topLevelDecls tree).head?.map PyNode.line

/-! ## Document model (src/docu/models.py) -/

/-- ArgumentInfo: argument name and optional rendered type hint (the
default field is never populated by the parser and is omitted). -/
structure ArgumentInfo where
  name : String
  type_hint : Option String

/-- DocItem with every field parse_python_file populates. -/
structure DocItem where
  name : String
  doc : String
  item_type : String
  lineno : Nat
  parent : Option String := none
  args : List ArgumentInfo := []
  return_type : Option String := none
  fields : List (String × String) := []
  methods : List DocItem := []

/-- Python dict insertion: replace in place when the key is present,
append otherwise. -/
def dictInsert {α : Type} (k : String) (v : α) : List (String × α) → List (String × α)
  | [] => [(k, v)]
  | (k', v') :: rest =>
    if k' = k then (k', v) :: rest else (k', v') :: dictInsert k v rest

/-- Append v to the list stored at key k, creating the key at the end on
first use (class_methods bookkeeping). -/
def bufAppend (k : String) (v : DocItem) : List (String × List DocItem) → List (String × List DocItem)
  | [] => [(k, [v])]
  | (k', vs) :: rest =>
    if k' = k then (k', vs ++ [v]) :: rest else (k', vs) :: bufAppend k v rest

/-! ## Per-declaration metadata (src/docu/parsers.py, lines 132-167) -/

/-- Parent resolution (src/docu/parsers.py, lines 132-140).  The source
scans ast.walk(tree) for the first ClassDef with a smaller line number
whose body contains the node; node identity makes the node's direct tree
parent the unique possible hit, so the resolution inspects the walk's
parent pointer. -/
def parentNameOf (pair : PyNode × Option PyNode) : Option String :=
  match pair.2 with
  | some k => if isClass k ∧ k.line < pair.1.line then some k.pname else none
  | none => none

/-- Kind resolution (src/docu/parsers.py, lines 142-144), including the
Python truthiness of the parent string in "if parent and ...". -/
def itemTypeOf (pair : PyNode × Option PyNode) : String :=
  let t := if isClass pair.1 then "class" else "function"
  match parentNameOf pair with
  | some p => if p ≠ "" ∧ t = "function" then "method" else t
  | none => t

/-- Argument extraction (src/docu/parsers.py, lines 146-155): every
positional parameter except those named self, annotation rendered when
present. -/
def extractArgs : List PyArg → List ArgumentInfo
  | [] => []
  | a :: rest =>
    if a.arg = "self" then extractArgs rest
    else { name := a.arg, type_hint := a.ann.map getTypeStr } :: extractArgs rest

/-- Class-field extraction (src/docu/parsers.py, lines 162-167): direct
body AnnAssign statements with a simple-name target. -/
def extractFields (node : PyNode) : List (String × String) :=
  if isClass node then
    node.children.foldl
      (fun fs c =>
        match c with
        | .annAssign (some t) ty _ => dictInsert t (getTypeStr ty) fs
        | _ => fs)
      []
  else []

/-- The DocItem built for one declaration occurrence with its attributed
comment texts (src/docu/parsers.py, lines 169-178). -/
def buildItem (pair : PyNode × Option PyNode) (docs : List String) : DocItem :=
  { name := pair.1.pname
    doc := if docs.isEmpty then "" else String.intercalate "\n" docs
    item_type := itemTypeOf pair
    lineno := pair.1.line
    parent := parentNameOf pair
    args := if isFunc pair.1 then extractArgs pair.1.pargs else []
    return_type :=
      match pair.1.preturns with
      | some r => if isFunc pair.1 then some (getTypeStr r) else none
      | none => none
    fields := extractFields pair.1
    methods := [] }

/-- Key used for a non-method item: parent-qualified when the parent
string is truthy, else the bare name (src/docu/parsers.py, line 187). -/
def fullNameOf (pair : PyNode × Option PyNode) : String :=
  match parentNameOf pair with
  | some p => if p ≠ "" then p ++ "." ++ pair.1.pname else pair.1.pname
  | none => pair.1.pname

/-- The declaration loop (src/docu/parsers.py, lines 111-188): methods go
to the class_methods buffer, everything else into doc_items. -/
def processRuns :
    List ((PyNode × Option PyNode) × List (Nat × String)) →
    List (String × DocItem) × List (String × List DocItem) →
    List (String × DocItem) × List (String × List DocItem)
  | [], st => st
  | (pair, run) :: rest, (items, cm) =>
    let item := buildItem pair (run.map Prod.snd)
    if itemTypeOf pair = "method" then
      processRuns rest (items, bufAppend ((parentNameOf pair).getD "") item cm)
    else
      processRuns rest (dictInsert (fullNameOf pair) item items, cm)

/-- One step of method attachment: when the buffered class name has an
entry, set that entry's methods to the buffered items sorted by line
number (src/docu/parsers.py, lines 191-193). -/
def attachStep (acc : List (String × DocItem)) (p : String × List DocItem) :
    List (String × DocItem) :=
  if acc.any (fun q => q.1 = p.1) then
    acc.map fun q =>
      if q.1 = p.1 then
        (q.1, { q.2 with methods := stableSortBy (fun a b => decide (a.lineno ≤ b.lineno)) p.2 })
      else q
  else acc

/-- Method attachment (src/docu/parsers.py, lines 190-193): one step per
buffered class name, in buffer order. -/
def attachMethods (cm : List (String × List DocItem)) (items : List (String × DocItem)) :
    List (String × DocItem) :=
  cm.foldl attachStep items

/-- The used_doc_lines set right after module attribution. -/
def moduleUsed (ments : List (Nat × String)) : Finset Nat :=
  ments.foldl (fun s p => insert p.1 s) ∅

/-- The declarations of the file in processing (breadth-first) order,
with parent pointers. -/
def declPairs (tree : List PyNode) : List (PyNode × Option PyNode) :=
  (walkPairs tree).filter fun p => isDecl p.1

/-- Embedding of parse_python_file (src/docu/parsers.py, lines 32-195).
moduleName stands for os.path.basename(file_path) with the extension
stripped; src holds the file's lines; tree is the module body. -/
def parsePythonFile (moduleName : String) (src : List String) (tree : List PyNode) :
    List (String × DocItem) :=
  let dc := extractDocComments src
  let dl := docLinesOf dc
  let ments := moduleEntries dc (firstDeclLine tree)
  let items0 : List (String × DocItem) :=
    if ments.isEmpty then []
    else [(moduleName,
      { name := moduleName
        doc := String.intercalate "\n" (ments.map Prod.snd)
        item_type := "module"
        lineno := 1
        methods := [] })]
  let runs := scanRuns dl src (declPairs tree) (moduleUsed ments)
  let st := processRuns runs (items0, [])
  attachMethods st.2 st.1

/-! ## Markdown renderer (src/docu/generators.py, generate_markdown_docs) -/

/-- Split a character list at every occurrence of the separator. -/
def splitOnChar (c : Char) : List Char → List (List Char)
  | [] => [[]]
  | x :: xs =>
    let r := splitOnChar c xs
    if x == c then [] :: r
    else
      match r with
      | [] => [[x]]
      | h :: t => (x :: h) :: t

/-- os.path.basename for the forward-slash separator. -/
def osBasename (s : String) : String :=
  String.mk ((splitOnChar '/' s.toList).getLastD [])

/-- Display string of an argument's type hint: the hint when truthy,
otherwise Any (render-time substitution). -/
def argHintStr (a : ArgumentInfo) : String :=
  match a.type_hint with
  | some t => if t ≠ "" then t else "Any"
  | none => "Any"

/-- Python truthiness of an optional string. -/
def optTruthy : Option String → Bool
  | some t => t ≠ ""
  | none => false

/-- The reconstructed signature block for a function or method. -/
def signatureLines (it : DocItem) : String :=
  let argsStr := String.intercalate ", " (it.args.map fun a => a.name ++ ": " ++ argHintStr a)
  let sig := "```python\ndef " ++ it.name ++ "(" ++ argsStr ++ ")"
  let sig := match it.return_type with
    | some rt => if rt ≠ "" then sig ++ " -> " ++ rt else sig
    | none => sig
  sig ++ "\n```"

/-- The lines a method contributes (src/docu/generators.py, lines 66-88). -/
def methodLines (m : DocItem) : List String :=
  ["\n##### " ++ m.name]
  ++ [signatureLines m]
  ++ (if m.doc ≠ "" then [m.doc] else [])
  ++ (if !m.args.isEmpty then
        "**Arguments**" :: m.args.map (fun a => "- " ++ a.name ++ ": " ++ argHintStr a)
      else [])
  ++ (match m.return_type with
      | some rt => if rt ≠ "" then ["**Returns**\n- " ++ rt] else []
      | none => [])

/-- The lines a class contributes (src/docu/generators.py, lines 47-90),
with its methods looked up among the top-level values. -/
def classLines (vals : List DocItem) (cls : DocItem) : List String :=
  ["\n### class " ++ cls.name]
  ++ (if !cls.fields.isEmpty then
        "\n#### Fields" :: cls.fields.map (fun p => "- **" ++ p.1 ++ "**: " ++ p.2)
      else [])
  ++ (if cls.doc ≠ "" then ["\n" ++ cls.doc] else [])
  ++ (let ms := vals.filter fun i =>
        i.item_type == "method" && (match i.parent with
          | some p => p == cls.name
          | none => false)
      if !ms.isEmpty then
        "\n#### Methods" ::
          (stableSortBy (fun a b => !pyStrLt b.name a.name) ms).flatMap methodLines
      else [])
  ++ [""]

/-- The lines a standalone function contributes
(src/docu/generators.py, lines 98-121). -/
def funcLines (f : DocItem) : List String :=
  ["\n### " ++ f.name]
  ++ [signatureLines f]
  ++ (if f.doc ≠ "" then [f.doc] else [])
  ++ (if !f.args.isEmpty then
        "**Arguments**" :: f.args.map (fun a => "- " ++ a.name ++ ": " ++ argHintStr a)
      else [])
  ++ (match f.return_type with
      | some rt => if rt ≠ "" then ["**Returns**\n- " ++ rt] else []
      | none => [])
  ++ [""]

/-- The module section of the markdown output: heading and text when the
first module item's doc is truthy (src/docu/generators.py, lines 31-37). -/
def modulePart : List DocItem → List String
  | m :: _ => if m.doc ≠ "" then ["# Module " ++ m.name, m.doc, ""] else []
  | [] => []

/-- The classes section of the markdown output; noHeading records whether
md_content is still empty when the section starts
(src/docu/generators.py, lines 39-90). -/
def classesPart (vals : List DocItem) (noHeading : Bool) : List String :=
  match vals.filter fun i => i.item_type == "class" with
  | [] => []
  | c0 :: cs =>
    (if noHeading then ["# Module " ++ osBasename c0.name, ""] else [])
    ++ ["## Classes"]
    ++ (stableSortBy (fun a b => !pyStrLt b.name a.name) (c0 :: cs)).flatMap
         (classLines vals)

/-- The functions section of the markdown output
(src/docu/generators.py, lines 92-121). -/
def functionsPart (vals : List DocItem) : List String :=
  let functions := vals.filter fun i => i.item_type == "function" && !optTruthy i.parent
  if !functions.isEmpty then
    "## Functions" ::
      (stableSortBy (fun a b => !pyStrLt b.name a.name) functions).flatMap funcLines
  else []

/-- The md_content list of generate_markdown_docs
(src/docu/generators.py, lines 20-123). -/
def generateMarkdownLines (items : List (String × DocItem)) : List String :=
  let vals := items.map Prod.snd
  let part1 := modulePart (vals.filter fun i => i.item_type == "module")
  part1 ++ classesPart vals part1.isEmpty ++ functionsPart vals

/-- Embedding of generate_markdown_docs: the joined output string. -/
def generateMarkdownDocs (items : List (String × DocItem)) : String :=
  String.intercalate "\n" (generateMarkdownLines items)

/-! ## Supporting definitions for the claim theorems and witnesses -/

/-- The argument extraction the claim describes: only a receiver (first)
parameter named self is dropped; every other declared parameter is
emitted.  Modelled from the spec (section 4.4) for comparison with the
code's behavior. -/
def specExtractArgs (args : List PyArg) : List ArgumentInfo :=
  let kept :=
    match args with
    | [] => []
    | a :: rest => if a.arg = "self" then rest else a :: rest
  kept.map fun a => { name := a.arg, type_hint := a.ann.map getTypeStr }

/-- A concrete doc_lines dictionary for the contiguity scenario: comments
at lines 6, 8 and 9 for the declaration at line 10. -/
def c3WitDl : Nat → Option String :=
  fun l =>
    if l = 9 then some "a"
    else if l = 8 then some "b"
    else if l = 6 then some "c"
    else none

/-- The matching source lines (index i holds line i + 1). -/
def c3WitSrc : List String :=
  ["x", "x", "x", "x", "x", "#/ c", "x", "#/ b", "#/ a", "def f():"]

/-- The set of line numbers of a collected run. -/
def toLineSet (l : List (Nat × String)) : Finset Nat :=
  (l.map Prod.fst).toFinset

/-- The line sets actually consumed by the successive per-declaration
scans, in processing order. -/
def runSets (dl : Nat → Option String) (src : List String)
    (decls : List (PyNode × Option PyNode)) (used : Finset Nat) : List (Finset Nat) :=
  (scanRuns dl src decls used).map fun r => toLineSet r.2

/-- A concrete file for the partition witness: a module comment at line
1, a declaration comment at line 6, the declaration at line 7. -/
def c2WitSrc : List String :=
  ["#/ m", "", "", "", "", "#/ b", "def g():"]

/-- The matching module body. -/
def c2WitTree : List PyNode :=
  [.functionDef "g" 7 [] none []]

/-- The inner function of the parent-resolution counterexample. -/
def c4InnerFn : PyNode := .functionDef "inner" 3 [] none []

/-- The method containing the inner function. -/
def c4MethodM : PyNode := .functionDef "m" 2 [⟨"self", none⟩] none [c4InnerFn]

/-- The class containing the method. -/
def c4ClassC : PyNode := .classDef "C" 1 [c4MethodM]

/-- The module body of the counterexample file. -/
def c4Tree : List PyNode := [c4ClassC]

/-- Python dict lookup: the value stored at a key. -/
def dictGet {α : Type} (k : String) : List (String × α) → Option α
  | [] => none
  | (k', v) :: rest => if k' = k then some v else dictGet k rest

/-- The value of the last entry with a given key in an insertion
sequence. -/
def lastAssoc {α : Type} (k : String) : List (String × α) → Option α
  | [] => none
  | (k', v) :: rest =>
    match lastAssoc k rest with
    | some w => some w
    | none => if k' = k then some v else none

/-- Folding a sequence of dict insertions over a dictionary. -/
def insPairs (ps : List (String × DocItem)) (items : List (String × DocItem)) :
    List (String × DocItem) :=
  ps.foldl (fun acc p => dictInsert p.1 p.2 acc) items

/-- The (key, item) insertions the declaration loop performs, in order:
one per non-method declaration occurrence. -/
def pairsOf (runs : List ((PyNode × Option PyNode) × List (Nat × String))) :
    List (String × DocItem) :=
  runs.filterMap fun r =>
    if itemTypeOf r.1 = "method" then none
    else some (fullNameOf r.1, buildItem r.1 (r.2.map Prod.snd))

/-- A file with an undocumented class and an undocumented function. -/
def c9WitTree : List PyNode :=
  [.classDef "K" 1 [], .functionDef "h" 2 [] none []]

/-- The matching source lines, with no marker comment anywhere. -/
def c9WitSrc : List String :=
  ["class K:", "def h():"]

/-- The undocumented function declaration. -/
def c9WitNode : PyNode := .functionDef "h" 2 [] none []

/-- A class item for the fallback-heading witness. -/
def c10WitClass : DocItem :=
  { name := "K", doc := "", item_type := "class", lineno := 1,
    parent := none, args := [], return_type := none, fields := [], methods := [] }

/-! ## Claim C5: type rendering of Dict-shaped annotations -/

/-- C5 counterexample: the renderer does not round-trip
Dict[str, Optional[int]].  The slice of the subscript is a Tuple node,
which get_type_str renders with surrounding parentheses, so the output is
Dict[(str, Optional[int])], not the literal Dict[str, Optional[int]]. -/
theorem c5_counterexample :
    getTypeStr dictStrOptIntExpr = "Dict[(str, Optional[int])]" ∧
    getTypeStr dictStrOptIntExpr ≠ "Dict[str, Optional[int]]" := by
  exact ⟨rfl, by decide⟩

/-- C5 (amended): a Dict[str, Optional[int]]-shaped annotation renders to
the literal string Dict[(str, Optional[int])] (the tuple subscript keeps
its parentheses), and subscripted generics render as the base followed by
the rendered slice in square brackets, recursing on both parts. -/
theorem c5_type_rendering :
    getTypeStr dictStrOptIntExpr = "Dict[(str, Optional[int])]" ∧
    (∀ v s : TypeExpr,
      getTypeStr (.subscript v s) = getTypeStr v ++ "[" ++ getTypeStr s ++ "]") := by
  exact ⟨rfl, fun v s => rfl⟩

/-! ## Claim C8: unsupported doc-style error -/

/-- C8 counterexample: the error raised for the style klingon does not
embed an enumerated list of the valid choices; none of google, numpy,
sphinx occurs in the message. -/
theorem c8_counterexample :
    getParser "klingon" = .error "Unsupported documentation style: klingon" ∧
    strHasSub "Unsupported documentation style: klingon" "google" = false ∧
    strHasSub "Unsupported documentation style: klingon" "numpy" = false ∧
    strHasSub "Unsupported documentation style: klingon" "sphinx" = false :=
  ⟨rfl, rfl, rfl, rfl⟩

/-- C8 (amended): for every style outside the supported set, get_parser
raises a ValueError whose message names the unsupported style (without
enumerating the valid choices) and returns no parser; for every style in
the set a parser is returned without error. -/
theorem c8_style_selection (style : String) :
    (style ≠ "google" → style ≠ "numpy" → style ≠ "sphinx" →
      getParser style = .error ("Unsupported documentation style: " ++ style)) ∧
    (style = "google" ∨ style = "numpy" ∨ style = "sphinx" →
      ∃ p, getParser style = .ok p) := by
  constructor
  · intro h1 h2 h3
    simp [getParser, h1, h2, h3]
  · rintro (rfl | rfl | rfl) <;> exact ⟨_, rfl⟩

/-- C8 witness: the amended theorem applied at klingon and google. -/
theorem c8_witness :
    getParser "klingon" = .error ("Unsupported documentation style: " ++ "klingon") ∧
    ∃ p, getParser "google" = .ok p :=
  ⟨(c8_style_selection "klingon").1 (by decide) (by decide) (by decide),
   (c8_style_selection "google").2 (Or.inl rfl)⟩

/-! ## Claim C6: the comment scanner contract -/

/-- C6 counterexample: on the line with two spaces after the marker, the
scanner stores the fully stripped body (both spaces removed into "two"),
while the spec's body (marker plus exactly one following space removed)
keeps one leading space. -/
theorem c6_counterexample :
    extractDocComments ["#/  two"] = [(1, "two")] ∧
    specCommentBody "#/  two" = " two" ∧
    ("two" : String) ≠ " two" := by
  decide

/-- Every entry of the scanner loop carries a line number at or after the
starting counter. -/
theorem extractGo_fst_ge (src : List String) :
    ∀ (i : Nat), ∀ p ∈ extractGo i src, i ≤ p.1 := by
  induction src with
  | nil => intro i p hp; cases hp
  | cons line rest ih =>
    intro i p hp
    by_cases hm : pyStartsWith (pyStrip line) "#/"
    · simp only [extractGo, hm, if_pos] at hp
      rcases List.mem_cons.mp hp with h | h
      · subst h; exact le_refl i
      · exact Nat.le_of_succ_le (ih (i + 1) p h)
    · simp only [extractGo, hm, if_neg, Bool.false_eq_true, not_false_iff] at hp
      exact Nat.le_of_succ_le (ih (i + 1) p hp)

/-- The scanner's output is strictly increasing in line numbers. -/
theorem extractGo_pairwise (src : List String) :
    ∀ (i : Nat), List.Pairwise (fun p q => p.1 < q.1) (extractGo i src) := by
  induction src with
  | nil => intro i; exact List.Pairwise.nil
  | cons line rest ih =>
    intro i
    by_cases hm : pyStartsWith (pyStrip line) "#/"
    · simp only [extractGo, hm, if_pos]
      exact List.pairwise_cons.mpr
        ⟨fun q hq => Nat.lt_of_succ_le (extractGo_fst_ge rest (i + 1) q hq), ih (i + 1)⟩
    · simp only [extractGo, hm, if_neg, Bool.false_eq_true, not_false_iff]
      exact ih (i + 1)

/-- Membership characterization of the scanner loop. -/
theorem extractGo_mem (src : List String) :
    ∀ (i n : Nat) (b : String),
      (n, b) ∈ extractGo i src ↔
        ∃ line, i ≤ n ∧ src.get? (n - i) = some line ∧
          pyStartsWith (pyStrip line) "#/" = true ∧
          b = pyStrip (pyDropChars (pyStrip line) 2) := by
  induction src with
  | nil =>
    intro i n b
    simp [extractGo]
  | cons line rest ih =>
    intro i n b
    by_cases hm : pyStartsWith (pyStrip line) "#/"
    · simp only [extractGo, hm, if_pos]
      constructor
      · intro hp
        rcases List.mem_cons.mp hp with h | h
        · have hn : n = i := congrArg Prod.fst h
          have hb : b = pyStrip (pyDropChars (pyStrip line) 2) := congrArg Prod.snd h
          subst hn
          exact ⟨line, Nat.le_refl _, by simp, hm, hb⟩
        · rcases (ih (i + 1) n b).mp h with ⟨l', hin, hg, hst, hb⟩
          refine ⟨l', by omega, ?_, hst, hb⟩
          have : n - i = (n - (i + 1)) + 1 := by omega
          rw [this]
          exact hg
      · rintro ⟨l', hin, hg, hst, hb⟩
        by_cases hn : n = i
        · subst hn
          simp at hg
          subst hg
          rw [hb]
          exact List.mem_cons_self _ _
        · have hlt : i + 1 ≤ n := by omega
          have : n - i = (n - (i + 1)) + 1 := by omega
          rw [this] at hg
          exact List.mem_cons_of_mem _ ((ih (i + 1) n b).mpr ⟨l', hlt, hg, hst, hb⟩)
    · simp only [extractGo, hm, if_neg, Bool.false_eq_true, not_false_iff]
      constructor
      · intro hp
        rcases (ih (i + 1) n b).mp hp with ⟨l', hin, hg, hst, hb⟩
        refine ⟨l', by omega, ?_, hst, hb⟩
        have : n - i = (n - (i + 1)) + 1 := by omega
        rw [this]
        exact hg
      · rintro ⟨l', hin, hg, hst, hb⟩
        by_cases hn : n = i
        · subst hn
          simp at hg
          subst hg
          exact absurd hst (by simpa using hm)
        · have hlt : i + 1 ≤ n := by omega
          have : n - i = (n - (i + 1)) + 1 := by omega
          rw [this] at hg
          exact (ih (i + 1) n b).mpr ⟨l', hlt, hg, hst, hb⟩

/-- C6 (amended): the scanner produces an ordered sequence (strictly
increasing line numbers) with one pair per line whose stripped form
starts with the marker, and the stored body is the stripped line with
the marker removed and the remainder stripped of surrounding whitespace
(not just one following space). -/
theorem c6_scanner_contract (src : List String) :
    List.Pairwise (fun p q => p.1 < q.1) (extractDocComments src) ∧
    ∀ n b, (n, b) ∈ extractDocComments src ↔
      ∃ line, 1 ≤ n ∧ src.get? (n - 1) = some line ∧
        pyStartsWith (pyStrip line) "#/" = true ∧
        b = pyStrip (pyDropChars (pyStrip line) 2) :=
  ⟨extractGo_pairwise src 1, fun n b => extractGo_mem src 1 n b⟩

/-! ## Claim C7: argument extraction -/

/-- C7 counterexample: for the parameter list (a, self) the code also
drops the second parameter named self, although it is not the receiver;
the spec's extraction keeps it. -/
theorem c7_counterexample :
    extractArgs [⟨"a", none⟩, ⟨"self", none⟩] =
      [{ name := "a", type_hint := none }] ∧
    specExtractArgs [⟨"a", none⟩, ⟨"self", none⟩] =
      [{ name := "a", type_hint := none }, { name := "self", type_hint := none }] ∧
    ([{ name := "a", type_hint := none }] : List ArgumentInfo) ≠
      [{ name := "a", type_hint := none }, { name := "self", type_hint := none }] := by
  refine ⟨rfl, rfl, ?_⟩
  intro h
  exact absurd (congrArg List.length h) (by decide)

/-- C7 (amended): for every function or method, the emitted arguments are
exactly the declared positional parameters whose name is not self (in any
position, not only the receiver), in declaration order, with type_hint
the rendered annotation when present and none otherwise. -/
theorem c7_arg_extraction (args : List PyArg) :
    extractArgs args =
      (args.filter fun a => a.arg ≠ "self").map
        (fun a => { name := a.arg, type_hint := a.ann.map getTypeStr }) := by
  induction args with
  | nil => rfl
  | cons a rest ih =>
    by_cases h : a.arg = "self"
    · simp [extractArgs, h, ih, List.filter]
    · simp [extractArgs, h, ih, List.filter]

/-! ## Claim C1: module-level comment attribution -/

/-- C1: when the file has top-level declarations, a collected comment is
included among the module entries only if its line is strictly before the
first top-level declaration line and more than 3 lines above it; when
there are none, every collected comment is included. -/
theorem c1_module_attribution (dc : List (Nat × String)) (tree : List PyNode)
    (f l : Nat) (c : String) :
    (firstDeclLine tree = some f →
      (l, c) ∈ moduleEntries dc (firstDeclLine tree) → l < f ∧ f - l > 3) ∧
    (firstDeclLine tree = none → moduleEntries dc (firstDeclLine tree) = dc) := by
  constructor
  · intro hf hm
    rw [hf] at hm
    simp only [moduleEntries, List.mem_filter, Bool.and_eq_true, decide_eq_true_eq] at hm
    exact hm.2
  · intro hf
    rw [hf]
    rfl

/-- C1 witness: the theorem applied to the file with a declaration at
line 6 and comments at lines 1 and 4 (only line 1 qualifies), and to the
file with no top-level declarations. -/
theorem c1_witness :
    (1 < 6 ∧ 6 - 1 > 3) ∧
    moduleEntries [(1, "a"), (4, "b")] (firstDeclLine ([] : List PyNode)) =
      [(1, "a"), (4, "b")] := by
  constructor
  · exact (c1_module_attribution [(1, "a"), (4, "b")]
      [.functionDef "f" 6 [] none []] 6 1 "a").1 rfl (by decide)
  · exact (c1_module_attribution [(1, "a"), (4, "b")] [] 6 1 "a").2 rfl

/-! ## Claim C3: contiguity and lookback bound of the upward scan -/

/-- Step equation: a fresh collected comment line adjacent to the run is
collected and consumed. -/
theorem scanAux_step_collect (dl : Nat → Option String) (src : List String)
    (dL f lineNo : Nat) (used : Finset Nat) (txt : String)
    (h1 : dl lineNo = some txt) (h2 : lineNo ∉ used)
    (h3 : ¬(dl (lineNo + 1) = none ∧ lineNo ≠ dL - 1)) :
    scanAux dl src dL (f + 1) lineNo used =
      ((scanAux dl src dL f (lineNo - 1) (insert lineNo used)).1 ++ [(lineNo, txt)],
       (scanAux dl src dL f (lineNo - 1) (insert lineNo used)).2) := by
  simp only [scanAux, h1]
  rw [if_neg h2, if_neg h3]

/-- Step equation: a non-collected line whose checked source text is
non-blank stops the scan. -/
theorem scanAux_step_blank (dl : Nat → Option String) (src : List String)
    (dL f lineNo : Nat) (used : Finset Nat)
    (h1 : dl lineNo = none)
    (h2 : lineNo < src.length ∧ pyStrip (src.getD lineNo "") ≠ "") :
    scanAux dl src dL (f + 1) lineNo used = ([], used) := by
  simp only [scanAux, h1]
  rw [if_pos h2]

/-- Every line collected by the scan lies in the window
(lineNo - fuel, lineNo]. -/
theorem scanAux_mem_bound (dl : Nat → Option String) (src : List String) (dL : Nat) :
    ∀ (fuel lineNo : Nat) (used : Finset Nat) (p : Nat × String),
      p ∈ (scanAux dl src dL fuel lineNo used).1 →
        p.1 ≤ lineNo ∧ lineNo < p.1 + fuel := by
  intro fuel
  induction fuel with
  | zero =>
    intro lineNo used p hp
    simp only [scanAux] at hp
    cases hp
  | succ f ih =>
    intro lineNo used p hp
    rcases hdl : dl lineNo with _ | txt
    · simp only [scanAux, hdl] at hp
      split_ifs at hp
      · cases hp
      · have := ih (lineNo - 1) used p hp
        omega
    · simp only [scanAux, hdl] at hp
      split_ifs at hp
      · have := ih (lineNo - 1) used p hp
        omega
      · cases hp
      · rcases List.mem_append.mp hp with h | h
        · have := ih (lineNo - 1) (insert lineNo used) p h
          omega
        · have hpe : p = (lineNo, txt) := by simpa using h
          subst hpe
          simp only []
          omega

/-- C3: a declaration at line N with collected comments at exactly
N-1, N-2, N-4 and none at N-3 receives exactly the comments of N-2 and
N-1 in ascending order; and the scan never collects a line 20 or more
lines above the declaration.  The compatibility hypothesis states that
every scanner-collected line is non-blank in the file, as holds of every
scanner output (the checked index lineNo refers to source line
lineNo + 1, as in the Python code). -/
theorem c3_contiguity_lookback :
    (∀ (dl : Nat → Option String) (src : List String) (n : Nat) (used : Finset Nat)
        (t1 t2 t4 : String),
      5 ≤ n →
      dl (n - 1) = some t1 → dl (n - 2) = some t2 →
      dl (n - 3) = none → dl (n - 4) = some t4 →
      (n - 1) ∉ used → (n - 2) ∉ used →
      (∀ l t, dl l = some t →
        1 ≤ l ∧ l - 1 < src.length ∧ pyStrip (src.getD (l - 1) "") ≠ "") →
      (scanUp dl src n used).1 = [(n - 2, t2), (n - 1, t1)]) ∧
    (∀ (dl : Nat → Option String) (src : List String) (n : Nat) (used : Finset Nat)
        (p : Nat × String),
      p ∈ (scanUp dl src n used).1 → n - p.1 ≤ 19 ∧ p.1 < n) := by
  constructor
  · intro dl src n used t1 t2 t4 hn hd1 hd2 hd3 hd4 hu1 hu2 hcompat
    obtain ⟨f, hf⟩ : ∃ f, (n - 1) - (n - 20) = f + 1 + 1 + 1 :=
      ⟨(n - 1) - (n - 20) - 3, by omega⟩
    have e1 : n - 1 - 1 = n - 2 := by omega
    have e2 : n - 2 - 1 = n - 3 := by omega
    have e3 : n - 2 + 1 = n - 1 := by omega
    -- step 3: the scan stops at n - 3
    have hcb := hcompat (n - 2) t2 hd2
    rw [e2] at hcb
    have s3 : ∀ u : Finset Nat,
        scanAux dl src n (f + 1) (n - 3) u = ([], u) := fun u =>
      scanAux_step_blank dl src n f (n - 3) u hd3 ⟨hcb.2.1, hcb.2.2⟩
    -- step 2: n - 2 is collected
    have s2 : scanAux dl src n (f + 1 + 1) (n - 2) (insert (n - 1) used) =
        ([(n - 2, t2)], insert (n - 2) (insert (n - 1) used)) := by
      have h2' : (n - 2) ∉ insert (n - 1) used := by
        simp only [Finset.mem_insert]
        push_neg
        exact ⟨by omega, hu2⟩
      have h3' : ¬(dl (n - 2 + 1) = none ∧ (n - 2) ≠ n - 1) := by
        rw [e3, hd1]
        simp
      have h := scanAux_step_collect dl src n (f + 1) (n - 2) (insert (n - 1) used) t2 hd2 h2' h3'
      rw [e2, s3] at h
      exact h
    -- step 1: n - 1 is collected
    have h3'' : ¬(dl (n - 1 + 1) = none ∧ (n - 1) ≠ n - 1) := by
      simp
    have s1 := scanAux_step_collect dl src n (f + 1 + 1) (n - 1) used t1 hd1 (by exact hu1) h3''
    rw [e1, s2] at s1
    show (scanAux dl src n ((n - 1) - (n - 20)) (n - 1) used).1 = _
    rw [hf, s1]
    rfl
  · intro dl src n used p hp
    have hb := scanAux_mem_bound dl src n ((n - 1) - (n - 20)) (n - 1) used p hp
    omega

/-- C3 witness: the theorem applied at the concrete scenario, yielding
exactly the comments of lines 8 and 9 in ascending order. -/
theorem c3_witness :
    (scanUp c3WitDl c3WitSrc 10 ∅).1 = [(10 - 2, "b"), (10 - 1, "a")] :=
  c3_contiguity_lookback.1 c3WitDl c3WitSrc 10 ∅ "a" "b" "c" (by omega)
    rfl rfl rfl rfl (by decide) (by decide)
    (by
      intro l t h
      unfold c3WitDl at h
      split_ifs at h with h9 h8 h6
      · subst h9
        exact ⟨by decide, by decide, by decide⟩
      · subst h8
        exact ⟨by decide, by decide, by decide⟩
      · subst h6
        exact ⟨by decide, by decide, by decide⟩)

/-! ## Claim C2: comment consumption is a partition -/

/-- The scan only collects lines that are not yet consumed, and its
resulting used set is the input set plus exactly the collected lines. -/
theorem scanAux_spec (dl : Nat → Option String) (src : List String) (dL : Nat) :
    ∀ (fuel lineNo : Nat) (used : Finset Nat),
      (∀ p ∈ (scanAux dl src dL fuel lineNo used).1, p.1 ∉ used) ∧
      (scanAux dl src dL fuel lineNo used).2 =
        used ∪ toLineSet (scanAux dl src dL fuel lineNo used).1 := by
  intro fuel
  induction fuel with
  | zero =>
    intro lineNo used
    constructor
    · intro p hp
      simp only [scanAux] at hp
      cases hp
    · simp [scanAux, toLineSet]
  | succ f ih =>
    intro lineNo used
    rcases hdl : dl lineNo with _ | txt
    · simp only [scanAux, hdl]
      split_ifs
      · exact ⟨fun p hp => absurd hp (List.not_mem_nil p), by simp [toLineSet]⟩
      · exact ih (lineNo - 1) used
    · simp only [scanAux, hdl]
      split_ifs with hused hbreak
      · exact ih (lineNo - 1) used
      · exact ⟨fun p hp => absurd hp (List.not_mem_nil p), by simp [toLineSet]⟩
      · constructor
        · intro p hp
          rcases List.mem_append.mp hp with h | h
          · have := (ih (lineNo - 1) (insert lineNo used)).1 p h
            simp only [Finset.mem_insert] at this
            push_neg at this
            exact this.2
          · have hpe : p = (lineNo, txt) := by simpa using h
            subst hpe
            exact hused
        · have h2 := (ih (lineNo - 1) (insert lineNo used)).2
          have ht : toLineSet
                ((scanAux dl src dL f (lineNo - 1) (insert lineNo used)).1 ++ [(lineNo, txt)]) =
              insert lineNo
                (toLineSet (scanAux dl src dL f (lineNo - 1) (insert lineNo used)).1) := by
            simp only [toLineSet, List.map_append, List.toFinset_append, List.map_cons,
              List.map_nil, List.toFinset_cons, List.toFinset_nil, insert_emptyc_eq]
            rw [Finset.union_comm, ← Finset.insert_eq]
          rw [h2, ht, Finset.insert_union, Finset.union_insert]

/-- The consumed line sets of the successive scans are pairwise disjoint
and disjoint from the initially consumed set. -/
theorem runSets_spec (dl : Nat → Option String) (src : List String) :
    ∀ (decls : List (PyNode × Option PyNode)) (used : Finset Nat),
      List.Pairwise Disjoint (runSets dl src decls used) ∧
      ∀ s ∈ runSets dl src decls used, Disjoint s used := by
  intro decls
  induction decls with
  | nil =>
    intro used
    exact ⟨List.Pairwise.nil, fun s hs => absurd hs (List.not_mem_nil s)⟩
  | cons d rest ih =>
    intro used
    have hspec := scanAux_spec dl src d.1.line
      ((d.1.line - 1) - (d.1.line - 20)) (d.1.line - 1) used
    have hfresh : Disjoint (toLineSet (scanUp dl src d.1.line used).1) used := by
      rw [Finset.disjoint_left]
      intro a ha
      simp only [toLineSet, List.mem_toFinset, List.mem_map] at ha
      rcases ha with ⟨p, hp, hpa⟩
      exact hpa ▸ hspec.1 p hp
    have hsnd : (scanUp dl src d.1.line used).2 =
        used ∪ toLineSet (scanUp dl src d.1.line used).1 := hspec.2
    have ihr := ih (scanUp dl src d.1.line used).2
    constructor
    · refine List.pairwise_cons.mpr ⟨?_, ihr.1⟩
      intro s hs
      have hds := ihr.2 s hs
      rw [hsnd] at hds
      exact ((Finset.disjoint_union_right.mp hds).2).symm
    · intro s hs
      rcases List.mem_cons.mp hs with rfl | hs'
      · exact hfresh
      · have hds := ihr.2 s hs'
        rw [hsnd] at hds
        exact (Finset.disjoint_union_right.mp hds).1

/-- C2: within a parse of any file, the module attribution and the
successive per-declaration scans consume pairwise disjoint sets of
comment lines: no collected comment line contributes its text to two
documentation items. -/
theorem c2_partition (src : List String) (tree : List PyNode) :
    List.Pairwise Disjoint
      (runSets (docLinesOf (extractDocComments src)) src (declPairs tree)
        (moduleUsed (moduleEntries (extractDocComments src) (firstDeclLine tree)))) ∧
    ∀ s ∈ runSets (docLinesOf (extractDocComments src)) src (declPairs tree)
        (moduleUsed (moduleEntries (extractDocComments src) (firstDeclLine tree))),
      Disjoint s (moduleUsed (moduleEntries (extractDocComments src) (firstDeclLine tree))) :=
  runSets_spec (docLinesOf (extractDocComments src)) src (declPairs tree)
    (moduleUsed (moduleEntries (extractDocComments src) (firstDeclLine tree)))

/-- C2 witness: the partition theorem applied at the concrete file; the
declaration's consumed line set is disjoint from the module's. -/
theorem c2_witness :
    List.Pairwise Disjoint
      (runSets (docLinesOf (extractDocComments c2WitSrc)) c2WitSrc (declPairs c2WitTree)
        (moduleUsed (moduleEntries (extractDocComments c2WitSrc) (firstDeclLine c2WitTree)))) ∧
    Disjoint ({6} : Finset Nat)
      (moduleUsed (moduleEntries (extractDocComments c2WitSrc) (firstDeclLine c2WitTree))) :=
  ⟨(c2_partition c2WitSrc c2WitTree).1,
   (c2_partition c2WitSrc c2WitTree).2 {6} (by decide)⟩

/-! ## Claim C4: parent and kind resolution -/

/-- Every statement has positive size. -/
theorem nsize_pos : ∀ n : PyNode, 1 ≤ nsize n := by
  intro n
  cases n <;> simp only [nsize] <;> omega

/-- lsize is additive over append. -/
theorem lsize_append : ∀ a b : List PyNode, lsize (a ++ b) = lsize a + lsize b := by
  intro a b
  induction a with
  | nil => simp [lsize]
  | cons n ns ih => simp [lsize, ih]; omega

/-- A node's direct children are strictly smaller than the node. -/
theorem lsize_children_lt : ∀ n : PyNode, lsize n.children < nsize n := by
  intro n
  cases n <;> simp only [nsize, PyNode.children, lsize] <;> omega

/-- The statements of the next level, without parent tags. -/
theorem nextLevel_map_fst (level : List (PyNode × Option PyNode)) :
    (nextLevel level).map Prod.fst = level.flatMap fun p => p.1.children := by
  induction level with
  | nil => rfl
  | cons p rest ih =>
    show ((p.1.children.map fun c => (c, some p.1)) ++ nextLevel rest).map Prod.fst =
      p.1.children ++ rest.flatMap fun q => q.1.children
    rw [List.map_append, ih, List.map_map]
    congr 1
    have h : (Prod.fst ∘ fun c : PyNode => (c, some p.1)) = fun c => c := rfl
    rw [h, List.map_id']

/-- The next level never grows in total size. -/
theorem plsize_nextLevel_le (level : List (PyNode × Option PyNode)) :
    plsize (nextLevel level) ≤ plsize level := by
  unfold plsize
  rw [nextLevel_map_fst]
  induction level with
  | nil => simp [lsize]
  | cons p rest ih =>
    simp only [List.flatMap_cons, List.map_cons, lsize_append, lsize]
    have h1 := lsize_children_lt p.1
    omega

/-- The next level of a nonempty level strictly shrinks. -/
theorem plsize_nextLevel_lt (p : PyNode × Option PyNode)
    (rest : List (PyNode × Option PyNode)) :
    plsize (nextLevel (p :: rest)) < plsize (p :: rest) := by
  unfold plsize
  rw [nextLevel_map_fst]
  simp only [List.flatMap_cons, List.map_cons, lsize_append, lsize]
  have h1 := lsize_children_lt p.1
  have h2 : lsize (rest.flatMap fun q => q.1.children) ≤ lsize (rest.map Prod.fst) := by
    have := plsize_nextLevel_le rest
    unfold plsize at this
    rw [nextLevel_map_fst] at this
    exact this
  omega

/-- The walk of an empty level is empty at any fuel. -/
theorem walkAux_nil : ∀ fuel, walkAux fuel [] = [] := by
  intro fuel
  cases fuel <;> rfl

/-- One level step of the walk. -/
theorem walkAux_succ (fuel : Nat) (level : List (PyNode × Option PyNode)) :
    walkAux (fuel + 1) level = level ++ walkAux fuel (nextLevel level) := by
  cases level with
  | nil => simp [walkAux_nil, nextLevel]
  | cons p rest => rfl

/-- The current level is contained in the walk when fuel remains. -/
theorem mem_walkAux_of_mem (fuel : Nat) (level : List (PyNode × Option PyNode))
    (p : PyNode × Option PyNode) (hp : p ∈ level) (hf : 1 ≤ fuel) :
    p ∈ walkAux fuel level := by
  obtain ⟨f, rfl⟩ : ∃ f, fuel = f + 1 := ⟨fuel - 1, by omega⟩
  rw [walkAux_succ]
  exact List.mem_append_left _ hp

/-- Children of walked nodes are walked, tagged with their parent. -/
theorem walkAux_child :
    ∀ (fuel : Nat) (level : List (PyNode × Option PyNode)) (k : PyNode)
      (pk : Option PyNode) (c : PyNode),
      plsize level < fuel → (k, pk) ∈ walkAux fuel level → c ∈ k.children →
      (c, some k) ∈ walkAux fuel level := by
  intro fuel
  induction fuel with
  | zero =>
    intro level k pk c hlt
    omega
  | succ f ih =>
    intro level k pk c hlt hmem hc
    rw [walkAux_succ] at hmem ⊢
    rcases List.mem_append.mp hmem with h | h
    · have hnext : (c, some k) ∈ nextLevel level := by
        simp only [nextLevel, List.mem_flatMap]
        exact ⟨(k, pk), h, List.mem_map.mpr ⟨c, hc, rfl⟩⟩
      have hpos : 1 ≤ plsize level := by
        rcases level with _ | ⟨q, rest⟩
        · cases h
        · have := nsize_pos q.1
          simp only [plsize, List.map_cons, lsize]
          omega
      exact List.mem_append_right _ (mem_walkAux_of_mem f _ _ hnext (by omega))
    · rcases level with _ | ⟨q, rest⟩
      · have he : nextLevel ([] : List (PyNode × Option PyNode)) = [] := rfl
        rw [he, walkAux_nil] at h
        cases h
      · have hlt' : plsize (nextLevel (q :: rest)) < f := by
          have := plsize_nextLevel_lt q rest
          omega
        exact List.mem_append_right _ (ih (nextLevel (q :: rest)) k pk c hlt' h hc)

/-- Top-level statements appear in the walk with no parent. -/
theorem mem_walkPairs_top (tree : List PyNode) (n : PyNode) (hn : n ∈ tree) :
    (n, none) ∈ walkPairs tree := by
  unfold walkPairs
  exact mem_walkAux_of_mem _ _ _ (List.mem_map.mpr ⟨n, hn, rfl⟩) (by omega)

/-- Direct children of walked statements appear in the walk, tagged with
their parent statement. -/
theorem mem_walkPairs_child (tree : List PyNode) (k : PyNode) (pk : Option PyNode)
    (c : PyNode) (hk : (k, pk) ∈ walkPairs tree) (hc : c ∈ k.children) :
    (c, some k) ∈ walkPairs tree := by
  unfold walkPairs at hk ⊢
  refine walkAux_child _ _ k pk c ?_ hk hc
  have : plsize (tree.map fun n => (n, none)) = lsize tree := by
    unfold plsize
    rw [List.map_map]
    have h : (Prod.fst ∘ fun n : PyNode => (n, (none : Option PyNode))) = fun n => n := rfl
    rw [h, List.map_id']
  omega

/-- A function or async-function statement is not a class. -/
theorem isClass_eq_false_of_isFunc (c : PyNode) (h : isFunc c = true) :
    isClass c = false := by
  cases c <;> simp [isFunc, isClass] at *

/-- C4 (amended): parent and kind resolution work through direct body
membership, not the descendant set.  A declaration that is a direct body
child of a class with a smaller declaration line gets that class's name
as parent and, when it is a function with a truthy parent name, the kind
method; a declaration processed with no parent statement, or whose parent
statement is not an earlier class, gets no parent and functions keep the
kind function; class declarations always get the kind class.  Direct
children of walked statements are processed with their parent statement
attached. -/
theorem c4_parent_kind :
    (∀ (tree : List PyNode) (k : PyNode) (pk : Option PyNode) (c : PyNode),
      (k, pk) ∈ walkPairs tree → c ∈ k.children →
      (c, some k) ∈ walkPairs tree ∧
      (isClass k = true → k.line < c.line →
        parentNameOf (c, some k) = some k.pname ∧
        (isFunc c = true → k.pname ≠ "" → itemTypeOf (c, some k) = "method"))) ∧
    (∀ c : PyNode, isFunc c = true →
      parentNameOf (c, none) = none ∧ itemTypeOf (c, none) = "function") ∧
    (∀ (c : PyNode) (par : Option PyNode), isClass c = true →
      itemTypeOf (c, par) = "class") ∧
    (∀ c k : PyNode, isFunc c = true → ¬(isClass k = true ∧ k.line < c.line) →
      parentNameOf (c, some k) = none ∧ itemTypeOf (c, some k) = "function") := by
  refine ⟨?_, ?_, ?_, ?_⟩
  · intro tree k pk c hk hc
    refine ⟨mem_walkPairs_child tree k pk c hk hc, ?_⟩
    intro hcls hlt
    have hpn : parentNameOf (c, some k) = some k.pname := by
      simp [parentNameOf, hcls, hlt]
    refine ⟨hpn, ?_⟩
    intro hfn hne
    have hcf := isClass_eq_false_of_isFunc c hfn
    simp [itemTypeOf, hpn, hcf, hne]
  · intro c hfn
    have hcf := isClass_eq_false_of_isFunc c hfn
    exact ⟨rfl, by simp [itemTypeOf, parentNameOf, hcf]⟩
  · intro c par hcls
    rcases par with _ | k
    · simp [itemTypeOf, parentNameOf, hcls]
    · by_cases hk : isClass k = true ∧ k.line < c.line
      · simp [itemTypeOf, parentNameOf, hk, hcls]
      · simp [itemTypeOf, parentNameOf, hk, hcls]
  · intro c k hfn hnk
    have hcf := isClass_eq_false_of_isFunc c hfn
    have hpn : parentNameOf (c, some k) = none := by
      simp only [parentNameOf]
      rw [if_neg]
      exact hnk
    exact ⟨hpn, by simp [itemTypeOf, hpn, hcf]⟩

/-- C4 counterexample: the inner function nested inside a method has the
class C in its enclosing-descendant set with a smaller declaration line
(so the claim demands parent C and kind method), but the code resolves
its parent through direct body membership only: it is processed with the
method as parent statement, gets no parent and keeps kind function. -/
theorem c4_counterexample :
    isFunc c4InnerFn = true ∧
    isClass c4ClassC = true ∧
    c4ClassC.line < c4InnerFn.line ∧
    c4InnerFn ∈ descendantsOf c4ClassC ∧
    (c4InnerFn, some c4MethodM) ∈ walkPairs c4Tree ∧
    parentNameOf (c4InnerFn, some c4MethodM) = none ∧
    itemTypeOf (c4InnerFn, some c4MethodM) = "function" ∧
    ("function" : String) ≠ "method" := by
  refine ⟨rfl, rfl, by decide, ?_, ?_, rfl, rfl, by decide⟩
  · have h : descendantsOf c4ClassC = [c4MethodM, c4InnerFn] := rfl
    rw [h]
    exact List.mem_cons_of_mem _ (List.mem_cons_self _ _)
  · have h : walkPairs c4Tree =
        [(c4ClassC, none), (c4MethodM, some c4ClassC), (c4InnerFn, some c4MethodM)] := rfl
    rw [h]
    exact List.mem_cons_of_mem _ (List.mem_cons_of_mem _ (List.mem_cons_self _ _))

/-- C4 witness: the amended theorem applied at the concrete tree: the
method of class C is attached to C with kind method, and the top-level
inner-free function keeps kind function. -/
theorem c4_witness :
    ((c4MethodM, some c4ClassC) ∈ walkPairs c4Tree ∧
      parentNameOf (c4MethodM, some c4ClassC) = some "C" ∧
      itemTypeOf (c4MethodM, some c4ClassC) = "method") ∧
    itemTypeOf (c4ClassC, none) = "class" := by
  have hk : (c4ClassC, (none : Option PyNode)) ∈ walkPairs c4Tree :=
    mem_walkPairs_top c4Tree c4ClassC (List.mem_cons_self _ _)
  have hc : c4MethodM ∈ c4ClassC.children := List.mem_cons_self _ _
  have h := (c4_parent_kind.1 c4Tree c4ClassC none c4MethodM hk hc)
  have h2 := h.2 rfl (by decide)
  exact ⟨⟨h.1, h2.1, h2.2 rfl (by decide)⟩,
    c4_parent_kind.2.2.1 c4ClassC none rfl⟩

/-! ## Claim C9: undocumented declarations are never omitted -/

/-- Looking up the key just inserted. -/
theorem dictGet_dictInsert_self {α : Type} (k : String) (v : α) :
    ∀ l : List (String × α), dictGet k (dictInsert k v l) = some v := by
  intro l
  induction l with
  | nil => simp [dictGet, dictInsert]
  | cons p rest ih =>
    obtain ⟨k', v'⟩ := p
    by_cases h : k' = k
    · subst h
      simp [dictGet, dictInsert]
    · simp [dictGet, dictInsert, h, ih]

/-- Inserting under a different key leaves a lookup unchanged. -/
theorem dictGet_dictInsert_other {α : Type} (k k' : String) (v : α) (hne : k' ≠ k) :
    ∀ l : List (String × α), dictGet k (dictInsert k' v l) = dictGet k l := by
  intro l
  induction l with
  | nil => simp [dictGet, dictInsert, hne]
  | cons p rest ih =>
    obtain ⟨k'', v''⟩ := p
    by_cases h : k'' = k'
    · subst h
      simp [dictGet, dictInsert, hne]
    · have hne' : k ≠ k' := fun hh => hne hh.symm
      by_cases h2 : k'' = k
      · simp [dictGet, dictInsert, h, h2, hne']
      · simp [dictGet, dictInsert, h, h2, hne', ih]

/-- The items side of the declaration loop is the fold of its insertion
sequence; the method buffer does not touch it. -/
theorem processRuns_fst :
    ∀ (runs : List ((PyNode × Option PyNode) × List (Nat × String)))
      (items : List (String × DocItem)) (cm : List (String × List DocItem)),
      (processRuns runs (items, cm)).1 = insPairs (pairsOf runs) items := by
  intro runs
  induction runs with
  | nil => intro items cm; rfl
  | cons r rest ih =>
    intro items cm
    obtain ⟨pair, run⟩ := r
    by_cases h : itemTypeOf pair = "method"
    · have hstep : processRuns ((pair, run) :: rest) (items, cm) =
          processRuns rest
            (items, bufAppend ((parentNameOf pair).getD "")
              (buildItem pair (run.map Prod.snd)) cm) := by
        simp [processRuns, h]
      have hpair : pairsOf ((pair, run) :: rest) = pairsOf rest := by
        simp [pairsOf, h]
      rw [hstep, ih, hpair]
    · have hstep : processRuns ((pair, run) :: rest) (items, cm) =
          processRuns rest
            (dictInsert (fullNameOf pair) (buildItem pair (run.map Prod.snd)) items, cm) := by
        simp [processRuns, h]
      have hpair : pairsOf ((pair, run) :: rest) =
          (fullNameOf pair, buildItem pair (run.map Prod.snd)) :: pairsOf rest := by
        simp [pairsOf, h]
      rw [hstep, ih, hpair]
      rfl

/-- Lookup after a fold of insertions: the last inserted value under the
key wins, falling back to the original dictionary. -/
theorem dictGet_insPairs (k : String) :
    ∀ (ps : List (String × DocItem)) (items : List (String × DocItem)),
      dictGet k (insPairs ps items) =
        match lastAssoc k ps with
        | some v => some v
        | none => dictGet k items := by
  intro ps
  induction ps with
  | nil => intro items; rfl
  | cons p rest ih =>
    intro items
    obtain ⟨k', v⟩ := p
    have hstep : insPairs ((k', v) :: rest) items = insPairs rest (dictInsert k' v items) := rfl
    rw [hstep, ih]
    rcases hrest : lastAssoc k rest with _ | w
    · simp only [lastAssoc, hrest]
      by_cases h : k' = k
      · subst h
        simp [dictGet_dictInsert_self]
      · simp [h, dictGet_dictInsert_other k k' v h]
    · simp [lastAssoc, hrest]

/-- A key absent from the whole insertion sequence has no last value. -/
theorem lastAssoc_eq_none {α : Type} (k : String) :
    ∀ ps : List (String × α), (∀ p ∈ ps, p.1 ≠ k) → lastAssoc k ps = none := by
  intro ps
  induction ps with
  | nil => intro _; rfl
  | cons p rest ih =>
    intro h
    obtain ⟨k', v⟩ := p
    have hr := ih fun q hq => h q (List.mem_cons_of_mem _ hq)
    simp only [lastAssoc, hr]
    exact if_neg (h (k', v) (List.mem_cons_self _ _))

/-- When the key occurs and every entry under it carries the same value,
the last value under the key is that value. -/
theorem lastAssoc_eq_of {α : Type} (k : String) (v : α) :
    ∀ ps : List (String × α),
      (∃ p ∈ ps, p.1 = k) → (∀ p ∈ ps, p.1 = k → p.2 = v) →
      lastAssoc k ps = some v := by
  intro ps
  induction ps with
  | nil =>
    rintro ⟨p, hp, _⟩
    cases hp
  | cons q rest ih =>
    rintro ⟨p, hp, hpk⟩ hall
    by_cases hex : ∃ p' ∈ rest, p'.1 = k
    · have hr := ih hex fun p' hp' h => hall p' (List.mem_cons_of_mem _ hp') h
      obtain ⟨k', v'⟩ := q
      simp [lastAssoc, hr]
    · have hnone : lastAssoc k rest = none := by
        apply lastAssoc_eq_none
        intro p' hp' 
        exact fun h => hex ⟨p', hp', h⟩
      have hq : p = q := by
        rcases List.mem_cons.mp hp with rfl | hin
        · rfl
        · exact absurd ⟨p, hin, hpk⟩ hex
      subst hq
      obtain ⟨k', v'⟩ := p
      have hk : k' = k := hpk
      subst hk
      simp only [lastAssoc, hnone, if_pos rfl]
      exact congrArg some (hall (k', v') (List.mem_cons_self _ _) rfl)

/-- Mapping a per-key modification over a dictionary changes only the
value stored at that key. -/
theorem dictGet_map_modify (k key : String) (f : DocItem → DocItem) :
    ∀ l : List (String × DocItem),
      dictGet k (l.map fun q => if q.1 = key then (q.1, f q.2) else q) =
        if k = key then (dictGet k l).map f else dictGet k l := by
  intro l
  induction l with
  | nil => by_cases h : k = key <;> simp [dictGet, h]
  | cons q rest ih =>
    rw [List.map_cons]
    obtain ⟨a, b⟩ := q
    by_cases hq : a = key
    · rw [if_pos hq]
      by_cases h2 : a = k
      · subst h2
        simp [dictGet, hq]
      · simp [dictGet, h2, ih]
    · rw [if_neg hq]
      by_cases h2 : a = k
      · subst h2
        simp [dictGet, hq]
      · simp [dictGet, h2, ih]

/-- The method-attachment pass preserves every key and changes only the
methods field of the stored items. -/
theorem attachMethods_get :
    ∀ (cm : List (String × List DocItem)) (items : List (String × DocItem))
      (k : String) (it : DocItem),
      dictGet k items = some it →
      ∃ ms, dictGet k (attachMethods cm items) = some { it with methods := ms } := by
  intro cm
  induction cm with
  | nil =>
    intro items k it hit
    refine ⟨it.methods, ?_⟩
    have heta : ({ it with methods := it.methods } : DocItem) = it := by
      cases it
      rfl
    rw [heta]
    exact hit
  | cons p rest ih =>
    intro items k it hit
    have hstep : attachMethods (p :: rest) items =
        attachMethods rest (attachStep items p) := rfl
    rw [hstep]
    unfold attachStep
    by_cases hany : items.any (fun q => q.1 = p.1)
    · rw [if_pos hany]
      by_cases hk : k = p.1
      · have hmod := dictGet_map_modify k p.1
          (fun d => { d with methods := stableSortBy (fun a b => decide (a.lineno ≤ b.lineno)) p.2 }) items
        rw [if_pos hk, hit] at hmod
        obtain ⟨ms, hfin⟩ := ih _ k _ hmod
        exact ⟨ms, hfin⟩
      · have hmod := dictGet_map_modify k p.1
          (fun d => { d with methods := stableSortBy (fun a b => decide (a.lineno ≤ b.lineno)) p.2 }) items
        rw [if_neg hk, hit] at hmod
        exact ih _ k it hmod
    · rw [if_neg hany]
      exact ih items k it hit

/-- The scan of a run list pairs each declaration, in order, with a scan
of its own line from some used state. -/
theorem scanRuns_mem (dl : Nat → Option String) (src : List String) :
    ∀ (decls : List (PyNode × Option PyNode)) (used : Finset Nat)
      (q : PyNode × Option PyNode) (run : List (Nat × String)),
      (q, run) ∈ scanRuns dl src decls used →
      q ∈ decls ∧ ∃ u, run = (scanUp dl src q.1.line u).1 := by
  intro decls
  induction decls with
  | nil =>
    intro used q run h
    cases h
  | cons d rest ih =>
    intro used q run h
    rcases List.mem_cons.mp h with heq | hmem
    · have hq : q = d := congrArg Prod.fst heq
      have hr : run = (scanUp dl src d.1.line used).1 := congrArg Prod.snd heq
      subst hq
      exact ⟨List.mem_cons_self _ _, used, hr⟩
    · have := ih _ q run hmem
      exact ⟨List.mem_cons_of_mem _ this.1, this.2⟩

/-- Every declaration of the processed list occurs in the scan output. -/
theorem scanRuns_exists (dl : Nat → Option String) (src : List String) :
    ∀ (decls : List (PyNode × Option PyNode)) (used : Finset Nat)
      (q : PyNode × Option PyNode), q ∈ decls →
      ∃ run, (q, run) ∈ scanRuns dl src decls used := by
  intro decls
  induction decls with
  | nil =>
    intro used q h
    cases h
  | cons d rest ih =>
    intro used q h
    rcases List.mem_cons.mp h with rfl | hmem
    · exact ⟨(scanUp dl src q.1.line used).1, List.mem_cons_self _ _⟩
    · obtain ⟨run, hrun⟩ := ih (scanUp dl src d.1.line used).2 q hmem
      exact ⟨run, List.mem_cons_of_mem _ hrun⟩

/-- If no scanned line in the window carries a collected comment, the
scan collects nothing. -/
theorem scanAux_none (dl : Nat → Option String) (src : List String) (dL : Nat) :
    ∀ (fuel lineNo : Nat) (used : Finset Nat),
      fuel ≤ lineNo →
      (∀ l, lineNo - fuel < l → l ≤ lineNo → dl l = none) →
      (scanAux dl src dL fuel lineNo used).1 = [] := by
  intro fuel
  induction fuel with
  | zero =>
    intro lineNo used _ _
    rfl
  | succ f ih =>
    intro lineNo used hle hnone
    have hdl : dl lineNo = none := hnone lineNo (by omega) (le_refl _)
    simp only [scanAux, hdl]
    split_ifs
    · rfl
    · exact ih (lineNo - 1) used (by omega) fun l h1 h2 => hnone l (by omega) (by omega)

/-- If no collected comment lies in the 19 lines above the declaration,
the upward scan collects nothing. -/
theorem scanUp_none (dl : Nat → Option String) (src : List String) (n : Nat)
    (used : Finset Nat)
    (hnone : ∀ l, n - 20 < l → l < n → dl l = none) :
    (scanUp dl src n used).1 = [] := by
  unfold scanUp
  apply scanAux_none
  · omega
  · intro l h1 h2
    exact hnone l (by omega) (by omega)

/-- A declaration occurrence with no parent statement is never a
method. -/
theorem itemTypeOf_top (c : PyNode) :
    itemTypeOf (c, none) = (if isClass c then "class" else "function") := rfl

/-- The kind of a top-level occurrence is never the method kind. -/
theorem itemTypeOf_top_ne_method (c : PyNode) : itemTypeOf (c, none) ≠ "method" := by
  rw [itemTypeOf_top]
  by_cases h : isClass c = true <;> simp [h]

/-- A top-level occurrence is keyed by its bare name. -/
theorem fullNameOf_top (c : PyNode) : fullNameOf (c, none) = c.pname := rfl

/-- C9: every top-level class or function declaration yields an entry in
the result mapping keyed by its bare name, with empty text when no marker
comment lies in its lookback window — undocumented declarations are never
omitted.  Hypotheses: the declaration's key is not claimed by any other
non-method declaration occurrence, and no collected comment line lies
within 19 lines above the declaration. -/
theorem c9_undocumented_entry
    (mn : String) (src : List String) (tree : List PyNode) (node : PyNode)
    (hmem : node ∈ tree)
    (hdecl : isDecl node = true)
    (hkey : ∀ q ∈ declPairs tree, itemTypeOf q ≠ "method" →
      fullNameOf q = node.pname → q = (node, none))
    (hnear : ∀ l, node.line - 20 < l → l < node.line →
      docLinesOf (extractDocComments src) l = none) :
    ∃ it, dictGet node.pname (parsePythonFile mn src tree) = some it ∧
      it.name = node.pname ∧ it.doc = "" ∧
      it.item_type = (if isClass node then "class" else "function") := by
  have htop : (node, (none : Option PyNode)) ∈ declPairs tree := by
    unfold declPairs
    exact List.mem_filter.mpr ⟨mem_walkPairs_top tree node hmem, hdecl⟩
  have hall : ∀ p ∈ pairsOf (scanRuns (docLinesOf (extractDocComments src)) src
        (declPairs tree)
        (moduleUsed (moduleEntries (extractDocComments src) (firstDeclLine tree)))),
      p.1 = node.pname → p.2 = buildItem (node, none) [] := by
    intro p hp hpk
    simp only [pairsOf, List.mem_filterMap] at hp
    obtain ⟨r, hr, hval⟩ := hp
    obtain ⟨q, run⟩ := r
    dsimp only at hval
    by_cases hm : itemTypeOf q = "method"
    · rw [if_pos hm] at hval
      cases hval
    · rw [if_neg hm] at hval
      have hpe := Option.some.inj hval
      subst hpe
      dsimp only at hpk
      have hqd := scanRuns_mem (docLinesOf (extractDocComments src)) src
        (declPairs tree) _ q run hr
      have hqe : q = (node, none) := hkey q hqd.1 hm hpk
      subst hqe
      obtain ⟨u, hu⟩ := hqd.2
      have hrun : run = [] := by
        rw [hu]
        exact scanUp_none (docLinesOf (extractDocComments src)) src node.line u
          fun l h1 h2 => hnear l h1 h2
      rw [hrun]
      rfl
  have hex : ∃ p ∈ pairsOf (scanRuns (docLinesOf (extractDocComments src)) src
        (declPairs tree)
        (moduleUsed (moduleEntries (extractDocComments src) (firstDeclLine tree)))),
      p.1 = node.pname := by
    obtain ⟨run, hrun⟩ := scanRuns_exists (docLinesOf (extractDocComments src)) src
      (declPairs tree)
      (moduleUsed (moduleEntries (extractDocComments src) (firstDeclLine tree)))
      (node, none) htop
    refine ⟨(fullNameOf (node, none), buildItem (node, none) (run.map Prod.snd)), ?_, rfl⟩
    simp only [pairsOf, List.mem_filterMap]
    refine ⟨((node, none), run), hrun, ?_⟩
    dsimp only
    rw [if_neg (itemTypeOf_top_ne_method node)]
  have hlast : lastAssoc node.pname (pairsOf (scanRuns
        (docLinesOf (extractDocComments src)) src (declPairs tree)
        (moduleUsed (moduleEntries (extractDocComments src) (firstDeclLine tree))))) =
      some (buildItem (node, none) []) :=
    lastAssoc_eq_of _ _ _ hex hall
  have hget1 : dictGet node.pname
      (processRuns (scanRuns (docLinesOf (extractDocComments src)) src (declPairs tree)
        (moduleUsed (moduleEntries (extractDocComments src) (firstDeclLine tree))))
        ((if (moduleEntries (extractDocComments src) (firstDeclLine tree)).isEmpty then
            ([] : List (String × DocItem))
          else [(mn,
            { name := mn
              doc := String.intercalate "\n"
                ((moduleEntries (extractDocComments src) (firstDeclLine tree)).map Prod.snd)
              item_type := "module"
              lineno := 1
              methods := [] })]), [])).1 = some (buildItem (node, none) []) := by
    rw [processRuns_fst, dictGet_insPairs, hlast]
  obtain ⟨ms, hfin⟩ := attachMethods_get
    (processRuns (scanRuns (docLinesOf (extractDocComments src)) src (declPairs tree)
      (moduleUsed (moduleEntries (extractDocComments src) (firstDeclLine tree))))
      ((if (moduleEntries (extractDocComments src) (firstDeclLine tree)).isEmpty then
          ([] : List (String × DocItem))
        else [(mn,
          { name := mn
            doc := String.intercalate "\n"
              ((moduleEntries (extractDocComments src) (firstDeclLine tree)).map Prod.snd)
            item_type := "module"
            lineno := 1
            methods := [] })]), [])).2
    _ node.pname _ hget1
  exact ⟨{ buildItem (node, none) [] with methods := ms }, hfin, rfl, rfl, rfl⟩

/-- C9 witness: the theorem applied at the concrete file; the
undocumented function still gets an entry keyed h with empty text. -/
theorem c9_witness :
    ∃ it, dictGet "h" (parsePythonFile "mod" c9WitSrc c9WitTree) = some it ∧
      it.name = "h" ∧ it.doc = "" ∧ it.item_type = "function" := by
  have h := c9_undocumented_entry "mod" c9WitSrc c9WitTree c9WitNode
    (List.mem_cons_of_mem _ (List.mem_cons_self _ _))
    rfl
    (by
      intro q hq
      have he : declPairs c9WitTree =
          [(.classDef "K" 1 [], none), (.functionDef "h" 2 [] none [], none)] := rfl
      rw [he] at hq
      rcases List.mem_cons.mp hq with rfl | hq2
      · intro _ hfn
        exact absurd hfn (by decide)
      · rcases List.mem_cons.mp hq2 with rfl | hq3
        · intro _ _
          rfl
        · cases hq3)
    (fun l _ _ => rfl)
  exact h

/-! ## Claim C10: fallback module heading from the first class -/

/-- C10: when the document model holds at least one class item and every
module item has empty text, the markdown renderer still emits a leading
module heading taken from the name of the first class item in the
mapping, followed by a blank line and the Classes section heading. -/
theorem c10_fallback_heading (items : List (String × DocItem)) (c0 : DocItem)
    (cs : List DocItem)
    (hmod : ∀ m ∈ (items.map Prod.snd).filter (fun i => i.item_type == "module"),
      m.doc = "")
    (hcls : (items.map Prod.snd).filter (fun i => i.item_type == "class") = c0 :: cs) :
    ∃ rest, generateMarkdownLines items =
      ("# Module " ++ osBasename c0.name) :: "" :: "## Classes" :: rest := by
  have h1 : modulePart ((items.map Prod.snd).filter fun i => i.item_type == "module") =
      [] := by
    rcases hm : (items.map Prod.snd).filter fun i => i.item_type == "module" with _ | ⟨m, ms⟩
    · rw [hm]
      rfl
    · have hd : m.doc = "" := hmod m (hm ▸ List.mem_cons_self m ms)
      rw [hm]
      simp [modulePart, hd]
  have h2 : classesPart (items.map Prod.snd) true =
      ("# Module " ++ osBasename c0.name) :: "" :: "## Classes" ::
        (stableSortBy (fun a b => !pyStrLt b.name a.name) (c0 :: cs)).flatMap
          (classLines (items.map Prod.snd)) := by
    unfold classesPart
    rw [hcls]
    rfl
  refine ⟨(stableSortBy (fun a b => !pyStrLt b.name a.name) (c0 :: cs)).flatMap
    (classLines (items.map Prod.snd)) ++ functionsPart (items.map Prod.snd), ?_⟩
  show modulePart ((items.map Prod.snd).filter fun i => i.item_type == "module") ++
      classesPart (items.map Prod.snd)
        (modulePart ((items.map Prod.snd).filter fun i => i.item_type == "module")).isEmpty ++
      functionsPart (items.map Prod.snd) = _
  rw [h1]
  show ([] : List String) ++ classesPart (items.map Prod.snd) true ++
      functionsPart (items.map Prod.snd) = _
  rw [h2]
  rfl

/-- C10 witness: the theorem applied at a one-class document model with
no module item. -/
theorem c10_witness :
    ∃ rest, generateMarkdownLines [("K", c10WitClass)] =
      ("# Module " ++ osBasename c10WitClass.name) :: "" :: "## Classes" :: rest := by
  refine c10_fallback_heading [("K", c10WitClass)] c10WitClass [] ?_ rfl
  intro m hm
  have he : ([("K", c10WitClass)].map Prod.snd).filter
      (fun i => i.item_type == "module") = [] := rfl
  rw [he] at hm
  cases hm
